import Mathlib

/-!
# Verification of the AnyOfField schema-union resolution engine

A shallow embedding of the `AnyOfField` component of
react-jsonschema-form: branch matching (`getMatchingOption`), branch
switching (`onOptionChange`) and the update hook
(`componentWillReceiveProps`), over a model of JavaScript values.

JSON-schema nodes are themselves plain JavaScript objects, so both form
data and schemas are modelled by a single inductive type `JVal` of
JS values, with the JS object operations (spread clone, field
assignment, `delete`, `Object.assign`, `Object.keys`, truthiness) as
functions on it.  The external validator (`isValid`) and default
computer (`computeDefaults`) are collaborators with fixed contracts and
are taken as parameters.
-/

set_option maxHeartbeats 1000000
set_option linter.unusedVariables false

namespace RJSF

/-- A JavaScript value: `undefined`, `null`, booleans, numbers
(modelled as integers, sufficient for the code under study), strings,
arrays and objects, the latter as ordered association lists of fields. -/
inductive JVal where
  | undefined : JVal
  | null : JVal
  | bool (b : Bool) : JVal
  | num (n : Int) : JVal
  | str (s : String) : JVal
  | arr (xs : List JVal) : JVal
  | obj (fs : List (String × JVal)) : JVal
deriving Repr, BEq

/-- JS truthiness: `undefined`, `null`, `false`, `0` and `""` are falsy;
every object and array is truthy. -/
def truthy : JVal → Bool
  | .undefined => false
  | .null => false
  | .bool b => b
  | .num n => decide (n ≠ 0)
  | .str s => decide (s ≠ "")
  | .arr _ => true
  | .obj _ => true

/-- Look up a field in an object's field list (first occurrence). -/
def lookupField : List (String × JVal) → String → Option JVal
  | [], _ => none
  | (k', v) :: rest, k => if k' = k then some v else lookupField rest k

/-- JS property read `o.k`: `undefined` when the key is absent or the
value is not an object (the code only reads properties of objects). -/
def JVal.getF (o : JVal) (k : String) : JVal :=
  match o with
  | .obj fs => (lookupField fs k).getD .undefined
  | _ => .undefined

/-- JS `k in o` / `o.hasOwnProperty(k)`: key presence on an object. -/
def JVal.hasKey (o : JVal) (k : String) : Bool :=
  match o with
  | .obj fs => fs.any (fun kv => kv.1 == k)
  | _ => false

/-- JS assignment `o.k = v` on an object's field list: overwrite in
place when the key exists (keeping its position), append otherwise. -/
def setField : List (String × JVal) → String → JVal → List (String × JVal)
  | [], k, v => [(k, v)]
  | (k', v') :: rest, k, v =>
    if k' = k then (k, v) :: rest else (k', v') :: setField rest k v

/-- JS assignment `o.k = v` at the value level; identity on
non-objects (the code only assigns on objects). -/
def JVal.setF (o : JVal) (k : String) (v : JVal) : JVal :=
  match o with
  | .obj fs => .obj (setField fs k v)
  | _ => o

/-- JS `delete o.k` at the value level; identity on non-objects. -/
def JVal.delF (o : JVal) (k : String) : JVal :=
  match o with
  | .obj fs => .obj (fs.filter (fun kv => !(kv.1 == k)))
  | _ => o

/-- `Object.keys(o)` (declaration order); `[]` on non-objects. -/
def JVal.keysF (o : JVal) : List String :=
  match o with
  | .obj fs => fs.map Prod.fst
  | _ => []

/-- `Object.assign(target, source)` folded over the source's fields:
each source field is assigned onto the target. -/
def objAssign (target source : JVal) : JVal :=
  match source with
  | .obj fs => fs.foldl (fun acc kv => acc.setF kv.1 kv.2) target
  | _ => target

/-- `arr.slice()` — a copy; at the value level the identity on arrays
(non-arrays are left unchanged, a path the code never takes). -/
def sliceArr (v : JVal) : JVal := v

/-- `arr.push(x)` on an array value. -/
def pushArr (v x : JVal) : JVal :=
  match v with
  | .arr xs => .arr (xs ++ [x])
  | _ => v

/-- The `{...option}` spread clone: at the value level, the value
itself (aliasing questions are treated in the heap model below). -/
def spreadClone (v : JVal) : JVal := v

/-- The auxiliary constraint built by `getMatchingOption` for an
object branch: `{ anyOf: Object.keys(option.properties).map(key =>
({ required: [key] })) }`. -/
def requiresAnyOf (option : JVal) : JVal :=
  .obj [("anyOf", .arr (((option.getF "properties").keysF).map
    (fun key => .obj [("required", .arr [.str key])])))]

/-- `{...option, definitions}` — the schema handed to the validator
for a branch without `properties` (spreading a primitive yields an
empty object, as in JS). -/
def withDefinitions (option definitions : JVal) : JVal :=
  match option with
  | .obj fs => .obj (setField fs "definitions" definitions)
  | _ => .obj [("definitions", definitions)]

/-- The augmented schema `getMatchingOption` builds for a branch that
has a truthy `properties` key, line for line from the source:
if the branch has its own truthy `anyOf`, shallow-clone it, ensure a
fresh `allOf` array (empty or a slice of the existing one), push the
`requiresAnyOf` constraint, else `Object.assign({definitions}, option,
requiresAnyOf)`; in both cases finally `delete augmentedSchema.required`. -/
def augmentOption (definitions option : JVal) : JVal :=
  if truthy (option.getF "anyOf") then
    let shallowClone := spreadClone option
    let withAllOf :=
      if !truthy (shallowClone.getF "allOf") then
        shallowClone.setF "allOf" (.arr [])
      else
        shallowClone.setF "allOf" (sliceArr (shallowClone.getF "allOf"))
    let pushed :=
      withAllOf.setF "allOf" (pushArr (withAllOf.getF "allOf") (requiresAnyOf option))
    pushed.delF "required"
  else
    (objAssign (objAssign (.obj [("definitions", definitions)]) option)
      (requiresAnyOf option)).delF "required"

/-- Whether one branch accepts the form data in `getMatchingOption`'s
loop: branches with a truthy `properties` key are validated against
their augmented schema, the rest against themselves plus `definitions`. -/
def optionMatches (isValid : JVal → JVal → Bool) (formData definitions option : JVal) :
    Bool :=
  if truthy (option.getF "properties") then
    isValid (augmentOption definitions option) formData
  else
    isValid (withDefinitions option definitions) formData

/-- The loop of `getMatchingOption`: first index whose branch accepts
the data; `0` once the list is exhausted. -/
def getMatchingOptionAux (isValid : JVal → JVal → Bool) (formData definitions : JVal) :
    List JVal → Nat → Nat
  | [], _ => 0
  | option :: rest, i =>
    if optionMatches isValid formData definitions option then i
    else getMatchingOptionAux isValid formData definitions rest (i + 1)

/-- `AnyOfField.getMatchingOption(formData, options, definitions)`:
iterate the branches in order, return the first whose (augmented)
schema validates the data, and `0` when none does. -/
def getMatchingOption (isValid : JVal → JVal → Bool) (formData : JVal)
    (options : List JVal) (definitions : JVal) : Nat :=
  getMatchingOptionAux isValid formData definitions options 0

/-- The component's only mutable state: the currently selected branch
index (`this.state.selectedOption`). -/
structure CompState where
  selectedOption : Nat
deriving Repr, DecidableEq

/-- The constructor: `selectedOption` is initialised from
`getMatchingOption(formData, options, registry.definitions)`. -/
def initState (isValid : JVal → JVal → Bool) (formData : JVal)
    (options : List JVal) (definitions : JVal) : CompState :=
  ⟨getMatchingOption isValid formData options definitions⟩

/-- `componentWillReceiveProps`: recompute the matching option for the
incoming data and adopt it unless it equals the current selection.
The source first compares the result against `null`, but
`getMatchingOption` always returns a number (a found index or the
fallback `0`), so that comparison is dead and the embedding, whose
result type is `Nat`, omits it. -/
def componentWillReceiveProps (isValid : JVal → JVal → Bool) (s : CompState)
    (formData : JVal) (options : List JVal) (definitions : JVal) : CompState :=
  let matchingOption := getMatchingOption isValid formData options definitions
  if matchingOption = s.selectedOption then s else ⟨matchingOption⟩

/-- Modelled from the spec: the external `guessType` collaborator's
verdict `guessType(formData) === "object"` — true exactly when the
runtime shape of the value is an object/mapping (not an array, not
null). -/
def guessTypeObject (v : JVal) : Bool :=
  match v with
  | .obj _ => true
  | _ => false

/-- Character-list test used by the modelled resolver: does the second
list begin with the first? -/
def strStartsAux : List Char → List Char → Bool
  | [], _ => true
  | _ :: _, [] => false
  | a :: as, b :: bs => a == b && strStartsAux as bs

/-- Does `s` begin with `p`?  (A direct recursion over the character
lists; `String.startsWith` itself is `Substring`-based and opaque to
kernel evaluation.) -/
def strStarts (s p : String) : Bool :=
  strStartsAux p.data s.data

/-- Modelled from the spec: the external `findSchemaDefinition`
resolver (`lib/utils`, not part of the sources under verification).
Looks a `#/definitions/<name>` pointer up by exact key in the
definitions table, raises a reference error when the entry is absent,
and follows a chain of references with fuel-bounded cycle detection. -/
def findSchemaDefinition (definitions : JVal) : Nat → String → Except String JVal
  | 0, r => .error ("Could not resolve cyclic reference " ++ r)
  | fuel + 1, r =>
    if strStarts r "#/definitions/" then
      match definitions with
      | .obj fs =>
        match lookupField fs (r.drop "#/definitions/".length) with
        | none => .error ("Could not find a definition for " ++ r)
        | some s =>
          if s.hasKey "$ref" then
            match s.getF "$ref" with
            | .str r' => findSchemaDefinition definitions fuel r'
            | _ => .error ("Could not find a definition for " ++ r)
          else .ok s
      | _ => .error ("Could not find a definition for " ++ r)
    else .error ("Could not find a definition for " ++ r)

/-- Fuel for reference chains; any bound larger than the chains in the
concrete examples below works. -/
def refFuel : Nat := 100

/-- The inner loop of `onOptionChange`'s discard phase: for each key
declared by a discarded option, delete it from the new form data when
present (`if (newFormData.hasOwnProperty(key)) delete newFormData[key]`). -/
def deleteMatchingKeys (newFormData : JVal) (keys : List String) : JVal :=
  keys.foldl (fun acc key => if acc.hasKey key then acc.delF key else acc) newFormData

/-- The discard phase of `onOptionChange`: for every remaining option
with a truthy `properties` key, delete that option's declared property
names from the new form data. -/
def discardOtherOptions (newFormData : JVal) (optionsToDiscard : List JVal) : JVal :=
  optionsToDiscard.foldl
    (fun acc option =>
      if truthy (option.getF "properties") then
        deleteMatchingKeys acc ((option.getF "properties").keysF)
      else acc)
    newFormData

/-- The test `newOption.type === "object" || newOption.properties`
from `onOptionChange`: the branch declares type object or has a truthy
`properties` key (strict equality: a string with that exact content). -/
def isObjectTyped (o : JVal) : Bool :=
  (match o.getF "type" with
    | .str t => t == "object"
    | _ => false) || truthy (o.getF "properties")

/-- The head of `onOptionChange`: `let newOption = options[selectedOption];
if ("$ref" in newOption) newOption = findSchemaDefinition(newOption.$ref,
registry.definitions)` — a thrown reference error propagates. -/
def resolveNewOption (options : List JVal) (selectedOption : Nat)
    (definitions : JVal) : Except String JVal :=
  let newOption0 := options.getD selectedOption .undefined
  if newOption0.hasKey "$ref" then
    match newOption0.getF "$ref" with
    | .str r => findSchemaDefinition definitions refFuel r
    | _ => Except.error "Could not resolve a non-string reference"
  else pure newOption0

/-- `AnyOfField.onOptionChange(option)`, with the external
`computeDefaults` collaborator as a parameter: resolve a `$ref` branch
through the definitions table (a missing entry propagates as an
error), then either compute defaults against an empty base and discard
every key declared by another option, or emit `undefined`; the new
state records the selected index.  The returned pair is (value passed
to `onChange`, new component state). -/
def onOptionChange (computeDefaults : JVal → JVal → JVal → JVal)
    (selectedOption : Nat) (formData : JVal) (options : List JVal)
    (definitions : JVal) : Except String (JVal × CompState) := do
  let newOption ← resolveNewOption options selectedOption definitions
  if guessTypeObject formData && isObjectTyped newOption then
    let newFormData := computeDefaults newOption (.obj []) definitions
    let optionsToDiscard := options.eraseIdx selectedOption
    pure (discardOtherOptions newFormData optionsToDiscard, ⟨selectedOption⟩)
  else
    pure (.undefined, ⟨selectedOption⟩)

/-- One `type` keyword constraint of draft-06 validation. -/
def typeNameOk (t : String) (data : JVal) : Bool :=
  if t = "object" then (match data with | .obj _ => true | _ => false)
  else if t = "string" then (match data with | .str _ => true | _ => false)
  else if t = "number" || t = "integer" then (match data with | .num _ => true | _ => false)
  else if t = "boolean" then (match data with | .bool _ => true | _ => false)
  else if t = "array" then (match data with | .arr _ => true | _ => false)
  else if t = "null" then (match data with | .null => true | _ => false)
  else true

/-- The `type` keyword: a constraint only when it is a string. -/
def typeOk (tv : JVal) (data : JVal) : Bool :=
  match tv with
  | .str t => typeNameOk t data
  | _ => true

/-- The `required` keyword: every listed key must be present — it
constrains objects only, as in draft-06. -/
def requiredOk (rv : JVal) (data : JVal) : Bool :=
  match rv, data with
  | .arr keys, .obj _ =>
    keys.all (fun k => match k with | .str s => data.hasKey s | _ => true)
  | _, _ => true

/-- Modelled from the spec: the external validator collaborator
(`lib/validate`, not part of the sources under verification), on the
draft-06 keyword subset the engine's schemas use — `type`, `required`,
`properties`, `anyOf`, `allOf`; fuel-bounded, `$ref`-free schemas. -/
def validateSimple : Nat → JVal → JVal → Bool
  | 0, _, _ => false
  | fuel + 1, schema, data =>
    typeOk (schema.getF "type") data &&
    requiredOk (schema.getF "required") data &&
    (match schema.getF "properties" with
      | .obj pfs => pfs.all (fun kv =>
          !(data.hasKey kv.1) || validateSimple fuel kv.2 (data.getF kv.1))
      | _ => true) &&
    (match schema.getF "anyOf" with
      | .arr ss => ss.any (fun s => validateSimple fuel s data)
      | _ => true) &&
    (match schema.getF "allOf" with
      | .arr ss => ss.all (fun s => validateSimple fuel s data)
      | _ => true)

/-- Modelled from the spec: a validator that resolves a top-level
`$ref` through the `definitions` attached to the schema it is given,
raising a schema reference error (not a `false` verdict) when the
referenced entry is absent, per the spec's error-propagation policy. -/
def isValidE (fuel : Nat) (schema data : JVal) : Except String Bool :=
  if schema.hasKey "$ref" then
    match schema.getF "$ref" with
    | .str r =>
      match findSchemaDefinition (schema.getF "definitions") fuel r with
      | .error e => .error e
      | .ok resolved => .ok (validateSimple fuel resolved data)
    | _ => .error "Could not resolve a non-string reference"
  else pure (validateSimple fuel schema data)

/-- The loop of `getMatchingOption` when the validator may raise (a JS
exception propagates out of the loop): first index whose branch
accepts the data, `0` when the list is exhausted, an error as soon as
the validator raises one. -/
def getMatchingOptionAuxE (isValid : JVal → JVal → Except String Bool)
    (formData definitions : JVal) : List JVal → Nat → Except String Nat
  | [], _ => .ok 0
  | option :: rest, i =>
    match (if truthy (option.getF "properties") then
            isValid (augmentOption definitions option) formData
           else
            isValid (withDefinitions option definitions) formData) with
    | .error e => .error e
    | .ok true => .ok i
    | .ok false => getMatchingOptionAuxE isValid formData definitions rest (i + 1)

/-- `getMatchingOption` with a raising validator. -/
def getMatchingOptionE (isValid : JVal → JVal → Except String Bool)
    (formData : JVal) (options : List JVal) (definitions : JVal) :
    Except String Nat :=
  getMatchingOptionAuxE isValid formData definitions options 0

/-- The method as declared on the class: `this.getMatchingOption(...)`
receives the component instance, and its body reads none of the
instance's state — only its three arguments. -/
def getMatchingOptionMethod (this : CompState) (isValid : JVal → JVal → Bool)
    (formData : JVal) (options : List JVal) (definitions : JVal) : Nat :=
  have _ := this
  getMatchingOption isValid formData options definitions

/-!
## Heap model of `getMatchingOption`

The pure model above cannot express mutation, so the augmentation and
the matching loop are repeated here over an explicit object heap: JS
objects and arrays live at addresses, `{...option}` and `.slice()`
allocate, `.push`, field assignment and `delete` write to an address.
The frame theorem for claim C8 states that a run of the matching loop
never writes to any address that existed before the call — the branch
schemas, their nested collections and their `required`/`allOf` fields
are bit-for-bit unchanged. -/

/-- A heap-level JS value: an immediate primitive or a reference to a
heap object. -/
inductive HVal where
  | undefined : HVal
  | null : HVal
  | bool (b : Bool) : HVal
  | num (n : Int) : HVal
  | str (s : String) : HVal
  | ref (a : Nat) : HVal
deriving Repr, DecidableEq

/-- A heap object: a JS object (ordered fields) or a JS array. -/
inductive HObj where
  | obj (fs : List (String × HVal)) : HObj
  | arr (xs : List HVal) : HObj
deriving Repr, DecidableEq

/-- The heap: objects indexed by address; allocation appends. -/
abbrev Heap := List HObj

/-- Read the object at an address. -/
def hread (h : Heap) (a : Nat) : Option HObj :=
  h[a]?

/-- Allocate a fresh object, returning the extended heap and its address. -/
def halloc (h : Heap) (o : HObj) : Heap × Nat :=
  (List.append h [o], List.length h)

/-- Overwrite the object at an address (out-of-range writes are lost,
as they never occur in the code under study). -/
def hwrite (h : Heap) (a : Nat) (o : HObj) : Heap :=
  List.set h a o

/-- Heap-level truthiness of a value (every object reference is truthy). -/
def htruthy : HVal → Bool
  | .undefined => false
  | .null => false
  | .bool b => b
  | .num n => decide (n ≠ 0)
  | .str s => decide (s ≠ "")
  | .ref _ => true

/-- Field lookup in a heap object's field list. -/
def lookupField' : List (String × HVal) → String → Option HVal
  | [], _ => none
  | (k', v) :: rest, k => if k' = k then some v else lookupField' rest k

/-- Heap-level property read `o.k` of the object at address `a`. -/
def hgetF (h : Heap) (a : Nat) (k : String) : HVal :=
  match hread h a with
  | some (.obj fs) => (lookupField' fs k).getD .undefined
  | _ => .undefined

/-- Heap-level `Object.keys` of the object at address `a`. -/
def hkeysF (h : Heap) (a : Nat) : List String :=
  match hread h a with
  | some (.obj fs) => fs.map Prod.fst
  | _ => []

/-- Heap-level field list of the object at `a` (empty for arrays and
dangling references). -/
def hfields (h : Heap) (a : Nat) : List (String × HVal) :=
  match hread h a with
  | some (.obj fs) => fs
  | _ => []

/-- Heap-level field assignment helper on a field list. -/
def setHField : List (String × HVal) → String → HVal → List (String × HVal)
  | [], k, v => [(k, v)]
  | (k', v') :: rest, k, v =>
    if k' = k then (k, v) :: rest else (k', v') :: setHField rest k v

/-- Heap-level assignment `h[a].k = v` (no-op when `a` holds an array
or dangles, paths the code never takes). -/
def hsetF (h : Heap) (a : Nat) (k : String) (v : HVal) : Heap :=
  match hread h a with
  | some (.obj fs) => hwrite h a (.obj (setHField fs k v))
  | _ => h

/-- Heap-level `delete h[a].k`. -/
def hdelF (h : Heap) (a : Nat) (k : String) : Heap :=
  match hread h a with
  | some (.obj fs) => hwrite h a (.obj (fs.filter (fun kv => !(kv.1 == k))))
  | _ => h

/-- Heap-level `arr.push(x)` at address `a`. -/
def hpush (h : Heap) (a : Nat) (x : HVal) : Heap :=
  match hread h a with
  | some (.arr xs) => hwrite h a (.arr (xs ++ [x]))
  | _ => h

/-- Allocate the `{ required: [key] }` singletons for `requiresAnyOf`:
each key allocates the array `[key]` and the object around it. -/
def hallocRequires (h : Heap) : List String → Heap × List HVal
  | [] => (h, [])
  | key :: rest =>
    let h1 := halloc h (.arr [.str key])
    let h2 := halloc h1.1 (.obj [("required", .ref h1.2)])
    let h3 := hallocRequires h2.1 rest
    (h3.1, .ref h2.2 :: h3.2)

/-- Allocate the `requiresAnyOf` object
`{ anyOf: Object.keys(option.properties).map(key => ({required:[key]})) }`
for the option at `optAddr`, returning its address. -/
def hallocRequiresAnyOf (h : Heap) (optAddr : Nat) : Heap × Nat :=
  let keys := match hgetF h optAddr "properties" with
    | .ref pa => hkeysF h pa
    | _ => []
  let h1 := hallocRequires h keys
  let h2 := halloc h1.1 (.arr h1.2)
  halloc h2.1 (.obj [("anyOf", .ref h2.2)])

/-- Heap-level `Object.assign(target, source)` where `source` is the
field list of a heap object: fold assignment over the fields. -/
def hassignFields (h : Heap) (target : Nat) (fs : List (String × HVal)) : Heap :=
  fs.foldl (fun acc kv => hsetF acc target kv.1 kv.2) h

/-- `shallowClone.allOf = []` or `shallowClone.allOf =
shallowClone.allOf.slice()`: give the clone at `cloneAddr` a freshly
allocated `allOf` array — empty when its current `allOf` is falsy, a
copy otherwise (a truthy non-reference `allOf` is left alone, a path
the code never takes with well-formed schemas). -/
def hensureFreshAllOf (h2 : Heap) (cloneAddr : Nat) : Heap :=
  if !htruthy (hgetF h2 cloneAddr "allOf") then
    let ha := halloc h2 (.arr [])
    hsetF ha.1 cloneAddr "allOf" (.ref ha.2)
  else
    match hgetF h2 cloneAddr "allOf" with
    | .ref oldArr =>
      let ha := halloc h2 (.arr (match hread h2 oldArr with
        | some (.arr xs) => xs
        | _ => []))
      hsetF ha.1 cloneAddr "allOf" (.ref ha.2)
    | _ => h2

/-- `shallowClone.allOf.push(requiresAnyOf)`. -/
def hpushRequires (h3 : Heap) (cloneAddr reqAnyAddr : Nat) : Heap :=
  match hgetF h3 cloneAddr "allOf" with
  | .ref arrAddr => hpush h3 arrAddr (.ref reqAnyAddr)
  | _ => h3

/-- The `option.anyOf` path of the augmentation: shallow-clone the
option, replace its `allOf` by a fresh array, push the auxiliary
constraint, delete `required` on the clone. -/
def haugmentWithAnyOf (h1 : Heap) (optAddr reqAnyAddr : Nat) : Heap × Nat :=
  let hc := halloc h1 (.obj (hfields h1 optAddr))
  (hdelF (hpushRequires (hensureFreshAllOf hc.1 hc.2) hc.2 reqAnyAddr)
    hc.2 "required", hc.2)

/-- The `Object.assign({definitions}, option, requiresAnyOf)` path of
the augmentation, followed by `delete .required` on the new object. -/
def haugmentAssign (h1 : Heap) (definitionsAddr optAddr reqAnyAddr : Nat) :
    Heap × Nat :=
  let hc := halloc h1 (.obj [("definitions", .ref definitionsAddr)])
  let h3 := hassignFields hc.1 hc.2 (hfields hc.1 optAddr)
  let h4 := hassignFields h3 hc.2 (hfields h3 reqAnyAddr)
  (hdelF h4 hc.2 "required", hc.2)

/-- The heap-level augmentation for a branch with truthy `properties`,
step for step the source of `getMatchingOption`: build `requiresAnyOf`;
if the option's `anyOf` is truthy, shallow-clone the option, give the
clone a fresh `allOf` array, push `requiresAnyOf` onto it; otherwise
`Object.assign({definitions}, option, requiresAnyOf)`; in both cases
finally `delete augmentedSchema.required` on the new object. -/
def haugmentOption (h : Heap) (definitionsAddr optAddr : Nat) : Heap × Nat :=
  let hr := hallocRequiresAnyOf h optAddr
  if htruthy (hgetF hr.1 optAddr "anyOf") then
    haugmentWithAnyOf hr.1 optAddr hr.2
  else
    haugmentAssign hr.1 definitionsAddr optAddr hr.2

/-- The heap-level `{...option, definitions}` for a branch without
truthy `properties`: allocate the spread clone, assign `definitions`. -/
def hwithDefinitions (h : Heap) (definitionsAddr optAddr : Nat) : Heap × Nat :=
  let hc := halloc h (.obj (hfields h optAddr))
  (hsetF hc.1 hc.2 "definitions" (.ref definitionsAddr), hc.2)

/-- The heap-level loop of `getMatchingOption`: the validator is an
arbitrary pure predicate over the heap (it reads, never writes). -/
def hGetMatchingOptionAux (isValid : Heap → Nat → JVal → Bool) (formData : JVal)
    (definitionsAddr : Nat) (h : Heap) : List HVal → Nat → Heap × Nat
  | [], _ => (h, 0)
  | optV :: rest, i =>
    match optV with
    | .ref optAddr =>
      if htruthy (hgetF h optAddr "properties") then
        let ha := haugmentOption h definitionsAddr optAddr
        if isValid ha.1 ha.2 formData then (ha.1, i)
        else hGetMatchingOptionAux isValid formData definitionsAddr ha.1 rest (i + 1)
      else
        let ha := hwithDefinitions h definitionsAddr optAddr
        if isValid ha.1 ha.2 formData then (ha.1, i)
        else hGetMatchingOptionAux isValid formData definitionsAddr ha.1 rest (i + 1)
    | _ => hGetMatchingOptionAux isValid formData definitionsAddr h rest (i + 1)

/-- Heap-level `getMatchingOption` over the options array stored at
`optionsAddr`: returns the final heap and the selected index. -/
def hGetMatchingOption (isValid : Heap → Nat → JVal → Bool) (formData : JVal)
    (h : Heap) (optionsAddr definitionsAddr : Nat) : Heap × Nat :=
  match hread h optionsAddr with
  | some (.arr opts) => hGetMatchingOptionAux isValid formData definitionsAddr h opts 0
  | _ => (h, 0)

/-!
## Reachable component states

The component's lifecycle: the constructor initialises the selection
from `getMatchingOption`, `componentWillReceiveProps` reacts to an
externally supplied data change, and a user-driven selection goes
through `onOptionChange` — the rendered select widget offers exactly
the indices `0 .. options.length - 1`, and the JS exception of a
failed `$ref` resolution aborts `onOptionChange` before its
`setState`, so only a successful run changes the state. -/

inductive Reachable (isValid : JVal → JVal → Bool)
    (computeDefaults : JVal → JVal → JVal → JVal)
    (options : List JVal) (definitions : JVal) : CompState → Prop where
  | init (formData : JVal) :
      Reachable isValid computeDefaults options definitions
        (initState isValid formData options definitions)
  | update (formData : JVal) (s : CompState) :
      Reachable isValid computeDefaults options definitions s →
      Reachable isValid computeDefaults options definitions
        (componentWillReceiveProps isValid s formData options definitions)
  | select (j : Nat) (formData emitted : JVal) (s s' : CompState)
      (hj : j < options.length) :
      Reachable isValid computeDefaults options definitions s →
      onOptionChange computeDefaults j formData options definitions =
        .ok (emitted, s') →
      Reachable isValid computeDefaults options definitions s'

/-!
## Concrete fixtures

Small schemas and data used by the concrete witness and
counterexample theorems below. -/

/-- The branch `{type: "object", properties: {a: {type: "string"}}}`. -/
def exBranchA : JVal :=
  .obj [("type", .str "object"),
    ("properties", .obj [("a", .obj [("type", .str "string")])])]

/-- The branch `{type: "object", properties: {b: {type: "number"}}}`. -/
def exBranchB : JVal :=
  .obj [("type", .str "object"),
    ("properties", .obj [("b", .obj [("type", .str "number")])])]

/-- The non-object branch `{type: "string"}`. -/
def exBranchStr : JVal := .obj [("type", .str "string")]

/-- The pure reference branch `{"$ref": "#/definitions/Foo"}`. -/
def exRefBranch : JVal := .obj [("$ref", .str "#/definitions/Foo")]

/-- The data object `{a: "x"}`. -/
def exDataA : JVal := .obj [("a", .str "x")]

/-- A `computeDefaults` collaborator for the witnesses: it returns the
object `{shared: "d"}` whatever its arguments; `shared` stands for a
property name several branches declare. -/
def exComputeDefaultsShared : JVal → JVal → JVal → JVal :=
  fun _ _ _ => .obj [("shared", .str "d")]

/-- Branch `{type: "object", properties: {shared: ..., u: ...}}`. -/
def exBranchShared1 : JVal :=
  .obj [("type", .str "object"),
    ("properties", .obj [("shared", .obj [("type", .str "string")]),
      ("u", .obj [("type", .str "string")])])]

/-- A second branch also declaring `shared`. -/
def exBranchShared2 : JVal :=
  .obj [("type", .str "object"),
    ("properties", .obj [("shared", .obj [("type", .str "string")])])]

/-!
## Theorems

First the behaviour of `getMatchingOption`'s loop, then each claim. -/

theorem gmoAux_no_match (isValid : JVal → JVal → Bool) (formData definitions : JVal) :
    ∀ (options : List JVal) (k : Nat),
    (∀ o ∈ options, optionMatches isValid formData definitions o = false) →
    getMatchingOptionAux isValid formData definitions options k = 0 := by
  intro options
  induction options with
  | nil => intro k _; rfl
  | cons o rest ih =>
    intro k h
    have h0 : optionMatches isValid formData definitions o = false :=
      h o (List.mem_cons_self o rest)
    simp only [getMatchingOptionAux, h0, Bool.false_eq_true, if_false]
    exact ih (k + 1) (fun o' ho' => h o' (List.mem_cons_of_mem o ho'))

theorem gmoAux_spec (isValid : JVal → JVal → Bool) (formData definitions : JVal) :
    ∀ (options : List JVal) (k : Nat),
    (∃ o ∈ options, optionMatches isValid formData definitions o = true) →
    ∃ j, j < options.length ∧
      getMatchingOptionAux isValid formData definitions options k = k + j ∧
      optionMatches isValid formData definitions (options.getD j .undefined) = true ∧
      ∀ m, m < j →
        optionMatches isValid formData definitions (options.getD m .undefined) = false := by
  intro options
  induction options with
  | nil => intro k h; simp at h
  | cons o rest ih =>
    intro k h
    by_cases h0 : optionMatches isValid formData definitions o = true
    · refine ⟨0, by simp, ?_, ?_, ?_⟩
      · simp only [getMatchingOptionAux, h0, if_true]; omega
      · simpa using h0
      · intro m hm; omega
    · have h0' : optionMatches isValid formData definitions o = false := by
        simpa using h0
      have hrest : ∃ o' ∈ rest, optionMatches isValid formData definitions o' = true := by
        rcases h with ⟨o', ho', hmo'⟩
        rcases List.mem_cons.mp ho' with rfl | hmem
        · exact absurd hmo' h0
        · exact ⟨o', hmem, hmo'⟩
      rcases ih (k + 1) hrest with ⟨j, hj, heq, hmatch, hmin⟩
      refine ⟨j + 1, by simpa using Nat.succ_lt_succ hj, ?_, ?_, ?_⟩
      · simp only [getMatchingOptionAux, h0', Bool.false_eq_true, if_false]
        rw [heq]; omega
      · simpa using hmatch
      · intro m hm
        cases m with
        | zero => simpa using h0'
        | succ m' =>
          have : m' < j := by omega
          simpa using hmin m' this

/-- C1: for every branch list, form data value and definitions table,
if some branch's augmented schema validates the form data then
`getMatchingOption` returns the smallest index whose branch, after
augmentation, validates it — in particular no branch with a smaller
index validates its augmented schema against that data. -/
theorem getMatchingOption_least_match (isValid : JVal → JVal → Bool)
    (formData definitions : JVal) (options : List JVal) (i : Nat)
    (hi : i < options.length)
    (hm : optionMatches isValid formData definitions (options.getD i .undefined) = true) :
    getMatchingOption isValid formData options definitions ≤ i ∧
    getMatchingOption isValid formData options definitions < options.length ∧
    optionMatches isValid formData definitions
      (options.getD (getMatchingOption isValid formData options definitions) .undefined)
      = true ∧
    ∀ j, j < getMatchingOption isValid formData options definitions →
      optionMatches isValid formData definitions (options.getD j .undefined) = false := by
  have hmem : options.getD i .undefined ∈ options := by
    rw [List.getD_eq_getElem?_getD, List.getElem?_eq_getElem hi]
    exact List.getElem_mem hi
  rcases gmoAux_spec isValid formData definitions options 0
      ⟨options.getD i .undefined, hmem, hm⟩ with ⟨j, hj, heq, hmatch, hmin⟩
  have hr : getMatchingOption isValid formData options definitions = j := by
    simpa [getMatchingOption] using heq
  refine ⟨?_, ?_, ?_, ?_⟩
  · rw [hr]
    by_contra hlt
    exact absurd hm (by simpa using hmin i (by omega))
  · rw [hr]; exact hj
  · rw [hr]; exact hmatch
  · rw [hr]; exact hmin

/-- Witness for C1 at a concrete input: branch 1 of
`[{type: "string"}, {type: "object", properties: {a: ...}}]` validates
`{a: "x"}` after augmentation, and the selected index (here `1`, since
the string branch rejects the object) is minimal. -/
theorem getMatchingOption_least_match_witness :
    (1 : Nat) < ([exBranchStr, exBranchA] : List JVal).length ∧
    optionMatches (validateSimple 10) exDataA (.obj [])
      (([exBranchStr, exBranchA] : List JVal).getD 1 .undefined) = true ∧
    (getMatchingOption (validateSimple 10) exDataA [exBranchStr, exBranchA] (.obj []) ≤ 1 ∧
     getMatchingOption (validateSimple 10) exDataA [exBranchStr, exBranchA] (.obj [])
       < ([exBranchStr, exBranchA] : List JVal).length ∧
     optionMatches (validateSimple 10) exDataA (.obj [])
       (([exBranchStr, exBranchA] : List JVal).getD
         (getMatchingOption (validateSimple 10) exDataA [exBranchStr, exBranchA] (.obj []))
         .undefined) = true ∧
     ∀ j, j < getMatchingOption (validateSimple 10) exDataA [exBranchStr, exBranchA] (.obj []) →
       optionMatches (validateSimple 10) exDataA (.obj [])
         (([exBranchStr, exBranchA] : List JVal).getD j .undefined) = false) :=
  ⟨by decide, by decide,
    getMatchingOption_least_match (validateSimple 10) exDataA (.obj [])
      [exBranchStr, exBranchA] 1 (by decide) (by decide)⟩

/-- C3: for every branch list and definitions table, when no branch's
augmented schema validates the form data — the hypothesis quantifies
over every branch, covering in particular `undefined` form data —
`getMatchingOption` returns `0`. -/
theorem getMatchingOption_no_match_returns_zero (isValid : JVal → JVal → Bool)
    (formData definitions : JVal) (options : List JVal)
    (h : ∀ o ∈ options, optionMatches isValid formData definitions o = false) :
    getMatchingOption isValid formData options definitions = 0 :=
  gmoAux_no_match isValid formData definitions options 0 h

/-- Witness for C3 at a concrete input: with `undefined` form data,
neither object branch validates (their augmented schemas demand an
object), and the match falls back to `0`. -/
theorem getMatchingOption_no_match_returns_zero_witness :
    (∀ o ∈ ([exBranchA, exBranchB] : List JVal),
      optionMatches (validateSimple 10) .undefined (.obj []) o = false) ∧
    getMatchingOption (validateSimple 10) .undefined [exBranchA, exBranchB] (.obj []) = 0 := by
  have hA : ∀ o ∈ ([exBranchA, exBranchB] : List JVal),
      optionMatches (validateSimple 10) .undefined (.obj []) o = false := by
    intro o ho
    rcases List.mem_cons.mp ho with rfl | ho
    · decide
    · rcases List.mem_cons.mp ho with rfl | ho
      · decide
      · exact absurd ho (List.not_mem_nil o)
  exact ⟨hA, getMatchingOption_no_match_returns_zero (validateSimple 10) .undefined (.obj [])
    [exBranchA, exBranchB] hA⟩

/-- C9: branch matching is deterministic and hidden-state-free.  The
method receives the component instance (the only mutable state of this
core), and two calls from arbitrary, possibly different instance
states with identical `(formData, options, definitions)` inputs return
the same index — which is moreover the value of the pure function
`getMatchingOption` of those inputs alone. -/
theorem getMatchingOption_deterministic (s₁ s₂ : CompState)
    (isValid : JVal → JVal → Bool) (formData : JVal) (options : List JVal)
    (definitions : JVal) :
    getMatchingOptionMethod s₁ isValid formData options definitions =
      getMatchingOptionMethod s₂ isValid formData options definitions ∧
    getMatchingOptionMethod s₁ isValid formData options definitions =
      getMatchingOption isValid formData options definitions :=
  ⟨rfl, rfl⟩

/-- C2 (code-bug evaluation): concrete run of the failing input.  With
branches `[{properties:{a}}, {properties:{b}}]` (augmented, neither
validates `{}`), a component whose confirmed selection is `1` receives
the empty object: `getMatchingOption` returns its no-match fallback
`0`, which is not `null` and differs from `1`, so
`componentWillReceiveProps` overwrites the selection with `0` — the
claim (and the spec) say it must stay `1`. -/
theorem componentWillReceiveProps_overrides_nonzero_selection :
    (∀ o ∈ ([exBranchA, exBranchB] : List JVal),
      optionMatches (validateSimple 10) (.obj []) (.obj []) o = false) ∧
    componentWillReceiveProps (validateSimple 10) ⟨1⟩ (.obj [])
      [exBranchA, exBranchB] (.obj []) = ⟨0⟩ := by
  constructor
  · intro o ho
    rcases List.mem_cons.mp ho with rfl | ho
    · decide
    · rcases List.mem_cons.mp ho with rfl | ho
      · decide
      · exact absurd ho (List.not_mem_nil o)
  · decide

/-- `onOptionChange` unfolded over the outcome of `$ref` resolution. -/
theorem onOptionChange_eq (computeDefaults : JVal → JVal → JVal → JVal)
    (j : Nat) (formData : JVal) (options : List JVal) (definitions : JVal) :
    onOptionChange computeDefaults j formData options definitions =
      match resolveNewOption options j definitions with
      | .error e => .error e
      | .ok newOption =>
        if guessTypeObject formData && isObjectTyped newOption then
          .ok (discardOtherOptions (computeDefaults newOption (.obj []) definitions)
            (options.eraseIdx j), ⟨j⟩)
        else
          .ok (.undefined, ⟨j⟩) := by
  unfold onOptionChange
  cases resolveNewOption options j definitions <;> rfl

/-- A successful `onOptionChange` always records the requested index
in the new state (`setState({selectedOption: parseInt(option, 10)})`). -/
theorem onOptionChange_ok_state (computeDefaults : JVal → JVal → JVal → JVal)
    (j : Nat) (formData : JVal) (options : List JVal) (definitions : JVal)
    (emitted : JVal) (s' : CompState)
    (hrun : onOptionChange computeDefaults j formData options definitions =
      .ok (emitted, s')) : s' = ⟨j⟩ := by
  rw [onOptionChange_eq] at hrun
  cases hres : resolveNewOption options j definitions with
  | error e => rw [hres] at hrun; cases hrun
  | ok newOption =>
    rw [hres] at hrun
    by_cases hc : (guessTypeObject formData && isObjectTyped newOption) = true
    · simp only [hc, if_true] at hrun
      cases hrun; rfl
    · simp only [Bool.not_eq_true] at hc
      simp only [hc, Bool.false_eq_true, if_false] at hrun
      cases hrun; rfl

/-- The object-switch path of `onOptionChange`, shared by the C4 and
C10 theorems: no `$ref`, object data, object-typed new branch. -/
theorem onOptionChange_object_run (computeDefaults : JVal → JVal → JVal → JVal)
    (j : Nat) (formData : JVal) (options : List JVal) (definitions : JVal)
    (hobj : guessTypeObject formData = true)
    (hnoref : (options.getD j .undefined).hasKey "$ref" = false)
    (htyped : isObjectTyped (options.getD j .undefined) = true) :
    onOptionChange computeDefaults j formData options definitions =
      .ok (discardOtherOptions
        (computeDefaults (options.getD j .undefined) (.obj []) definitions)
        (options.eraseIdx j), ⟨j⟩) := by
  have hres : resolveNewOption options j definitions = .ok (options.getD j .undefined) := by
    simp only [resolveNewOption, hnoref, Bool.false_eq_true, if_false]
    rfl
  rw [onOptionChange_eq, hres]
  simp only [hobj, htyped, Bool.and_self, if_true]

/-- C5: a user-driven switch to a branch that is not object-typed, or
from current data that is not an object, emits `undefined` (and still
selects the requested index). -/
theorem onOptionChange_non_object_emits_undefined
    (computeDefaults : JVal → JVal → JVal → JVal) (j : Nat) (formData : JVal)
    (options : List JVal) (definitions : JVal)
    (hnoref : (options.getD j .undefined).hasKey "$ref" = false)
    (hcond : guessTypeObject formData = false ∨
      isObjectTyped (options.getD j .undefined) = false) :
    onOptionChange computeDefaults j formData options definitions =
      .ok (.undefined, ⟨j⟩) := by
  have hres : resolveNewOption options j definitions = .ok (options.getD j .undefined) := by
    simp only [resolveNewOption, hnoref, Bool.false_eq_true, if_false]
    rfl
  rw [onOptionChange_eq, hres]
  rcases hcond with hcond | hcond <;>
    simp only [hcond, Bool.false_and, Bool.and_false, Bool.false_eq_true, if_false]

/-- Witness for C5 at a concrete input: switching to `{type: "string"}`
from the object data `{a: "x"}` emits `undefined`. -/
theorem onOptionChange_non_object_emits_undefined_witness :
    (([exBranchA, exBranchStr] : List JVal).getD 1 .undefined).hasKey "$ref" = false ∧
    isObjectTyped (([exBranchA, exBranchStr] : List JVal).getD 1 .undefined) = false ∧
    onOptionChange exComputeDefaultsShared 1 exDataA [exBranchA, exBranchStr]
      (.obj []) = .ok (.undefined, ⟨1⟩) :=
  ⟨by decide, by decide,
    onOptionChange_non_object_emits_undefined exComputeDefaultsShared 1 exDataA
      [exBranchA, exBranchStr] (.obj []) (by decide) (Or.inr (by decide))⟩

theorem anyKey_filter_self (fs : List (String × JVal)) (k : String) :
    (fs.filter (fun kv => !(kv.1 == k))).any (fun kv => kv.1 == k) = false := by
  induction fs with
  | nil => rfl
  | cons kv rest ih =>
    by_cases hk : kv.1 = k
    · simp [List.filter_cons, hk, ih]
    · simp [List.filter_cons, hk, ih]

theorem anyKey_filter_mono (fs : List (String × JVal)) (k : String)
    (q : String × JVal → Bool) (h : fs.any (fun kv => kv.1 == k) = false) :
    (fs.filter q).any (fun kv => kv.1 == k) = false := by
  induction fs with
  | nil => rfl
  | cons kv rest ih =>
    simp only [List.any_cons, Bool.or_eq_false_iff] at h
    by_cases hq : q kv
    · simp [List.filter_cons, hq, h.1, ih h.2]
    · simp [List.filter_cons, hq, ih h.2]

theorem deleteMatchingKeys_cons (v : JVal) (key : String) (rest : List String) :
    deleteMatchingKeys v (key :: rest) =
      deleteMatchingKeys (if v.hasKey key then v.delF key else v) rest := rfl

theorem discardOtherOptions_cons (v : JVal) (o : JVal) (os : List JVal) :
    discardOtherOptions v (o :: os) =
      discardOtherOptions
        (if truthy (o.getF "properties") then
          deleteMatchingKeys v ((o.getF "properties").keysF) else v) os := rfl

theorem delF_hasKey_self (v : JVal) (k : String) : (v.delF k).hasKey k = false := by
  cases v with
  | obj fs =>
    simp only [JVal.delF, JVal.hasKey]
    exact anyKey_filter_self fs k
  | undefined => rfl
  | null => rfl
  | bool b => rfl
  | num n => rfl
  | str s => rfl
  | arr xs => rfl

theorem delF_hasKey_mono (v : JVal) (k k' : String) (h : v.hasKey k = false) :
    (v.delF k').hasKey k = false := by
  cases v with
  | obj fs =>
    simp only [JVal.delF, JVal.hasKey] at h ⊢
    exact anyKey_filter_mono fs k _ h
  | undefined => rfl
  | null => rfl
  | bool b => rfl
  | num n => rfl
  | str s => rfl
  | arr xs => rfl

theorem deleteMatchingKeys_preserves_absent (keys : List String) (v : JVal)
    (k : String) (h : v.hasKey k = false) :
    (deleteMatchingKeys v keys).hasKey k = false := by
  induction keys generalizing v with
  | nil => exact h
  | cons key rest ih =>
    rw [deleteMatchingKeys_cons]
    by_cases hk : v.hasKey key = true
    · rw [if_pos hk]
      exact ih (v.delF key) (delF_hasKey_mono v k key h)
    · rw [if_neg hk]
      exact ih v h

theorem deleteMatchingKeys_mem_absent (keys : List String) (v : JVal)
    (k : String) (h : k ∈ keys) :
    (deleteMatchingKeys v keys).hasKey k = false := by
  induction keys generalizing v with
  | nil => exact absurd h (List.not_mem_nil k)
  | cons key rest ih =>
    rw [deleteMatchingKeys_cons]
    rcases List.mem_cons.mp h with rfl | hmem
    · by_cases hk : v.hasKey k = true
      · rw [if_pos hk]
        exact deleteMatchingKeys_preserves_absent rest (v.delF k) k
          (delF_hasKey_self v k)
      · rw [if_neg hk]
        exact deleteMatchingKeys_preserves_absent rest v k
          (Bool.not_eq_true _ ▸ hk)
    · by_cases hk : v.hasKey key = true
      · rw [if_pos hk]; exact ih (v.delF key) hmem
      · rw [if_neg hk]; exact ih v hmem

theorem discardOtherOptions_preserves_absent (os : List JVal) (v : JVal)
    (k : String) (h : v.hasKey k = false) :
    (discardOtherOptions v os).hasKey k = false := by
  induction os generalizing v with
  | nil => exact h
  | cons o rest ih =>
    rw [discardOtherOptions_cons]
    by_cases hp : truthy (o.getF "properties") = true
    · rw [if_pos hp]
      exact ih _ (deleteMatchingKeys_preserves_absent _ v k h)
    · rw [if_neg hp]
      exact ih v h

theorem discardOtherOptions_declared_absent (os : List JVal) (v : JVal)
    (k : String) (o : JVal) (ho : o ∈ os)
    (hp : truthy (o.getF "properties") = true)
    (hk : k ∈ (o.getF "properties").keysF) :
    (discardOtherOptions v os).hasKey k = false := by
  induction os generalizing v with
  | nil => exact absurd ho (List.not_mem_nil o)
  | cons o' rest ih =>
    rw [discardOtherOptions_cons]
    rcases List.mem_cons.mp ho with rfl | hmem
    · rw [if_pos hp]
      exact discardOtherOptions_preserves_absent rest _ k
        (deleteMatchingKeys_mem_absent _ v k hk)
    · by_cases hp' : truthy (o'.getF "properties") = true
      · rw [if_pos hp']; exact ih _ hmem
      · rw [if_neg hp']; exact ih v hmem

theorem lookupField_filter_ne (fs : List (String × JVal)) (k k' : String)
    (h : k ≠ k') :
    lookupField (fs.filter (fun kv => !(kv.1 == k'))) k = lookupField fs k := by
  induction fs with
  | nil => rfl
  | cons kv rest ih =>
    obtain ⟨k1, v1⟩ := kv
    by_cases hk : k1 = k'
    · subst hk
      have hne : ¬ (k1 = k) := fun he => h he.symm
      simp only [List.filter_cons, beq_self_eq_true, Bool.not_true,
        Bool.false_eq_true, if_false, lookupField, hne, ih]
    · have hbeq : (k1 == k') = false := beq_eq_false_iff_ne.mpr hk
      by_cases hkk : k1 = k
      · subst hkk
        simp [List.filter_cons, hbeq, lookupField]
      · simp [List.filter_cons, hbeq, lookupField, hkk, ih]

theorem delF_getF_ne (v : JVal) (k k' : String) (h : k ≠ k') :
    (v.delF k').getF k = v.getF k := by
  cases v with
  | obj fs => simp only [JVal.delF, JVal.getF, lookupField_filter_ne fs k k' h]
  | undefined => rfl
  | null => rfl
  | bool b => rfl
  | num n => rfl
  | str s => rfl
  | arr xs => rfl

theorem deleteMatchingKeys_getF_not_mem (keys : List String) (v : JVal)
    (k : String) (h : k ∉ keys) :
    (deleteMatchingKeys v keys).getF k = v.getF k := by
  induction keys generalizing v with
  | nil => rfl
  | cons key rest ih =>
    have hne : k ≠ key := fun he => h (he ▸ List.mem_cons_self key rest)
    have hrest : k ∉ rest := fun hm => h (List.mem_cons_of_mem key hm)
    rw [deleteMatchingKeys_cons]
    by_cases hk : v.hasKey key = true
    · rw [if_pos hk, ih (v.delF key) hrest, delF_getF_ne v k key hne]
    · rw [if_neg hk]
      exact ih v hrest

theorem discardOtherOptions_getF_undeclared (os : List JVal) (v : JVal)
    (k : String)
    (h : ∀ o ∈ os, truthy (o.getF "properties") = true →
      k ∉ (o.getF "properties").keysF) :
    (discardOtherOptions v os).getF k = v.getF k := by
  induction os generalizing v with
  | nil => rfl
  | cons o rest ih =>
    rw [discardOtherOptions_cons]
    have hrest : ∀ o' ∈ rest, truthy (o'.getF "properties") = true →
        k ∉ (o'.getF "properties").keysF :=
      fun o' ho' => h o' (List.mem_cons_of_mem o ho')
    by_cases hp : truthy (o.getF "properties") = true
    · rw [if_pos hp, ih _ hrest,
        deleteMatchingKeys_getF_not_mem _ v k (h o (List.mem_cons_self o rest) hp)]
    · rw [if_neg hp]
      exact ih v hrest

/-- C4: a user-driven switch to an object-typed branch `j` (no `$ref`)
while the current data is an object emits exactly the defaults of
branch `j` computed against an empty base with every property name
declared by any other branch deleted: the run is stated literally,
every key declared by a discarded branch is absent from the emitted
value, and every key no other branch declares keeps its value from the
computed defaults. -/
theorem onOptionChange_object_switch (computeDefaults : JVal → JVal → JVal → JVal)
    (j : Nat) (formData : JVal) (options : List JVal) (definitions : JVal)
    (hobj : guessTypeObject formData = true)
    (hnoref : (options.getD j .undefined).hasKey "$ref" = false)
    (htyped : isObjectTyped (options.getD j .undefined) = true) :
    onOptionChange computeDefaults j formData options definitions =
      .ok (discardOtherOptions
        (computeDefaults (options.getD j .undefined) (.obj []) definitions)
        (options.eraseIdx j), ⟨j⟩) ∧
    (∀ k : String, ∀ o ∈ options.eraseIdx j,
      truthy (o.getF "properties") = true →
      k ∈ (o.getF "properties").keysF →
      (discardOtherOptions
        (computeDefaults (options.getD j .undefined) (.obj []) definitions)
        (options.eraseIdx j)).hasKey k = false) ∧
    (∀ k : String,
      (∀ o ∈ options.eraseIdx j, truthy (o.getF "properties") = true →
        k ∉ (o.getF "properties").keysF) →
      (discardOtherOptions
        (computeDefaults (options.getD j .undefined) (.obj []) definitions)
        (options.eraseIdx j)).getF k =
        (computeDefaults (options.getD j .undefined) (.obj []) definitions).getF k) := by
  refine ⟨onOptionChange_object_run computeDefaults j formData options definitions
    hobj hnoref htyped, ?_, ?_⟩
  · intro k o ho hp hk
    exact discardOtherOptions_declared_absent _ _ k o ho hp hk
  · intro k h
    exact discardOtherOptions_getF_undeclared _ _ k h

/-- Witness for C4 at the claim's concrete instance: switching from
the `{a}` branch to the `{b}` branch with current data `{a: "x"}` and
no defaults for `b` emits `{}` — in particular no key `a`. -/
theorem onOptionChange_object_switch_witness :
    onOptionChange (fun _ _ _ => .obj []) 1 exDataA [exBranchA, exBranchB]
      (.obj []) = .ok (.obj [], ⟨1⟩) ∧
    (JVal.obj []).hasKey "a" = false := by
  have h := onOptionChange_object_switch (fun _ _ _ => .obj []) 1 exDataA
    [exBranchA, exBranchB] (.obj []) (by decide) (by decide) (by decide)
  exact ⟨h.1, by decide⟩

/-- C10: after a user-driven switch where the data and the new branch
are object-typed, a key declared by a non-selected branch is absent
from the emitted value even when the newly selected branch declares
the same key (so a computed default for the shared name is deleted). -/
theorem onOptionChange_shared_property_deleted
    (computeDefaults : JVal → JVal → JVal → JVal) (j : Nat) (formData : JVal)
    (options : List JVal) (definitions : JVal) (k : String) (o : JVal)
    (hobj : guessTypeObject formData = true)
    (hnoref : (options.getD j .undefined).hasKey "$ref" = false)
    (htyped : isObjectTyped (options.getD j .undefined) = true)
    (hshared : k ∈ ((options.getD j .undefined).getF "properties").keysF)
    (ho : o ∈ options.eraseIdx j)
    (hp : truthy (o.getF "properties") = true)
    (hk : k ∈ (o.getF "properties").keysF)
    (emitted : JVal) (s' : CompState)
    (hrun : onOptionChange computeDefaults j formData options definitions =
      .ok (emitted, s')) :
    emitted.hasKey k = false := by
  have hrun' := onOptionChange_object_run computeDefaults j formData options
    definitions hobj hnoref htyped
  rw [hrun'] at hrun
  have hemit : emitted = discardOtherOptions
      (computeDefaults (options.getD j .undefined) (.obj []) definitions)
      (options.eraseIdx j) := by
    cases hrun; rfl
  rw [hemit]
  exact discardOtherOptions_declared_absent _ _ k o ho hp hk

/-- Witness for C10 at a concrete input: both branches declare
`shared`, defaults for the selected branch produce `{shared: "d"}`,
and the emitted value still has no `shared` key. -/
theorem onOptionChange_shared_property_deleted_witness :
    ∃ emitted s',
      onOptionChange exComputeDefaultsShared 0 (.obj [("shared", .str "q")])
        [exBranchShared1, exBranchShared2] (.obj []) = .ok (emitted, s') ∧
      emitted.hasKey "shared" = false := by
  refine ⟨.obj [], ⟨0⟩, rfl, ?_⟩
  exact onOptionChange_shared_property_deleted exComputeDefaultsShared 0
    (.obj [("shared", .str "q")]) [exBranchShared1, exBranchShared2] (.obj [])
    "shared" exBranchShared2 (by decide) (by decide) (by decide) (by decide)
    (List.mem_cons_self _ _) (by decide) (by decide) (.obj []) ⟨0⟩ rfl

theorem gmoAux_zero_or_lt (isValid : JVal → JVal → Bool) (formData definitions : JVal) :
    ∀ (options : List JVal) (k : Nat),
    getMatchingOptionAux isValid formData definitions options k = 0 ∨
    ∃ j < options.length,
      getMatchingOptionAux isValid formData definitions options k = k + j := by
  intro options
  induction options with
  | nil => intro k; exact Or.inl rfl
  | cons o rest ih =>
    intro k
    by_cases h0 : optionMatches isValid formData definitions o = true
    · right
      refine ⟨0, by simp, ?_⟩
      simp only [getMatchingOptionAux, h0, if_true]
      omega
    · have h0' : optionMatches isValid formData definitions o = false := by
        simpa using h0
      rcases ih (k + 1) with h | ⟨j, hj, heq⟩
      · left
        simp only [getMatchingOptionAux, h0', Bool.false_eq_true, if_false]
        exact h
      · right
        refine ⟨j + 1, by simpa using Nat.succ_lt_succ hj, ?_⟩
        simp only [getMatchingOptionAux, h0', Bool.false_eq_true, if_false]
        rw [heq]; omega

theorem getMatchingOption_lt_length (isValid : JVal → JVal → Bool)
    (formData definitions : JVal) (options : List JVal) (hne : options ≠ []) :
    getMatchingOption isValid formData options definitions < options.length := by
  have hlen : 0 < options.length := List.length_pos.mpr hne
  rcases gmoAux_zero_or_lt isValid formData definitions options 0 with h | ⟨j, hj, heq⟩
  · unfold getMatchingOption; rw [h]; exact hlen
  · unfold getMatchingOption; rw [heq]; simpa using hj

/-- C7 counterexample: with the empty branch list — which the claim
explicitly includes — the constructor's initial evaluation still
selects the fallback index `0`, and `0 ≤ selectedOption <
branches.length` fails because the length is `0`. -/
theorem selectedOption_invariant_fails_on_empty :
    (initState (validateSimple 10) .undefined [] (.obj [])).selectedOption = 0 ∧
    ¬ ((initState (validateSimple 10) .undefined [] (.obj [])).selectedOption <
        ([] : List JVal).length) :=
  ⟨rfl, by decide⟩

/-- C7 (amended): for every NONEMPTY branch list, the invariant
`selectedOption < branches.length` (with `0 ≤` trivial for `Nat`)
holds in every reachable state: after initial evaluation, after every
externally supplied data update, and after every user-driven selection
of one of the offered indices. -/
theorem selectedOption_invariant_reachable (isValid : JVal → JVal → Bool)
    (computeDefaults : JVal → JVal → JVal → JVal) (options : List JVal)
    (definitions : JVal) (hne : options ≠ []) (s : CompState)
    (hs : Reachable isValid computeDefaults options definitions s) :
    s.selectedOption < options.length := by
  induction hs with
  | init formData =>
    exact getMatchingOption_lt_length isValid formData definitions options hne
  | update formData s hr ih =>
    simp only [componentWillReceiveProps]
    by_cases heq : getMatchingOption isValid formData options definitions =
      s.selectedOption
    · rw [if_pos heq]; exact ih
    · rw [if_neg heq]
      exact getMatchingOption_lt_length isValid formData definitions options hne
  | select j formData emitted s s' hj hr hok ih =>
    have hs' := onOptionChange_ok_state computeDefaults j formData options
      definitions emitted s' hok
    rw [hs']
    exact hj

/-- Witness for the amended C7 at a concrete input: the state the
constructor reaches on the one-branch list satisfies the invariant. -/
theorem selectedOption_invariant_reachable_witness :
    ([exBranchA] : List JVal) ≠ [] ∧
    (initState (validateSimple 10) .undefined [exBranchA] (.obj [])).selectedOption <
      ([exBranchA] : List JVal).length :=
  ⟨List.cons_ne_nil _ _,
    selectedOption_invariant_reachable (validateSimple 10) exComputeDefaultsShared
      [exBranchA] (.obj []) (List.cons_ne_nil _ _) _ (Reachable.init .undefined)⟩

theorem findSchemaDefinition_succ (dfs : List (String × JVal)) (fuel : Nat)
    (r : String) :
    findSchemaDefinition (.obj dfs) (fuel + 1) r =
      if strStarts r "#/definitions/" then
        match lookupField dfs (r.drop "#/definitions/".length) with
        | none => .error ("Could not find a definition for " ++ r)
        | some s =>
          if s.hasKey "$ref" then
            match s.getF "$ref" with
            | .str r' => findSchemaDefinition (.obj dfs) fuel r'
            | _ => .error ("Could not find a definition for " ++ r)
          else .ok s
      else .error ("Could not find a definition for " ++ r) := rfl

theorem findSchemaDefinition_absent (dfs : List (String × JVal)) (r : String)
    (hstart : strStarts r "#/definitions/" = true)
    (habs : lookupField dfs (r.drop "#/definitions/".length) = none) :
    ∀ fuel, ∃ e, findSchemaDefinition (.obj dfs) fuel r = .error e := by
  intro fuel
  cases fuel with
  | zero => exact ⟨_, rfl⟩
  | succ n =>
    refine ⟨"Could not find a definition for " ++ r, ?_⟩
    rw [findSchemaDefinition_succ, if_pos hstart, habs]

theorem isValidE_pure_ref_absent (fuel : Nat) (dfs : List (String × JVal))
    (r : String) (formData : JVal)
    (hstart : strStarts r "#/definitions/" = true)
    (habs : lookupField dfs (r.drop "#/definitions/".length) = none) :
    ∃ e, isValidE fuel
      (withDefinitions (.obj [("$ref", .str r)]) (.obj dfs)) formData = .error e := by
  obtain ⟨e, he⟩ := findSchemaDefinition_absent dfs r hstart habs fuel
  refine ⟨e, ?_⟩
  have hw : withDefinitions (.obj [("$ref", JVal.str r)]) (.obj dfs) =
      .obj [("$ref", JVal.str r), ("definitions", .obj dfs)] := rfl
  have h1 : (JVal.obj [("$ref", JVal.str r), ("definitions", JVal.obj dfs)]).hasKey
      "$ref" = true := rfl
  have hg : (JVal.obj [("$ref", JVal.str r), ("definitions", JVal.obj dfs)]).getF
      "$ref" = .str r := rfl
  have hdefs : (JVal.obj [("$ref", JVal.str r), ("definitions", JVal.obj dfs)]).getF
      "definitions" = .obj dfs := rfl
  rw [hw]
  simp only [isValidE, h1, if_true, hg, hdefs, he]

theorem gmoAuxE_skip (isValid : JVal → JVal → Except String Bool)
    (formData definitions : JVal) :
    ∀ (l₁ l₂ : List JVal) (k : Nat),
    (∀ o ∈ l₁,
      (if truthy (o.getF "properties") then
        isValid (augmentOption definitions o) formData
       else isValid (withDefinitions o definitions) formData) = .ok false) →
    getMatchingOptionAuxE isValid formData definitions (l₁ ++ l₂) k =
      getMatchingOptionAuxE isValid formData definitions l₂ (k + l₁.length) := by
  intro l₁
  induction l₁ with
  | nil => intro l₂ k h; simp
  | cons o rest ih =>
    intro l₂ k h
    have h0 := h o (List.mem_cons_self o rest)
    have hrest : ∀ o' ∈ rest,
        (if truthy (o'.getF "properties") then
          isValid (augmentOption definitions o') formData
         else isValid (withDefinitions o' definitions) formData) = .ok false :=
      fun o' ho' => h o' (List.mem_cons_of_mem o ho')
    have harith : k + 1 + rest.length = k + (rest.length + 1) := by omega
    simp only [List.cons_append, getMatchingOptionAuxE, h0, List.append_eq,
      List.length_cons]
    rw [ih l₂ (k + 1) hrest, harith]

/-- C6: for a branch that is purely a `$ref` pointer whose referenced
entry is absent from the definitions table, both operations raise a
reference error instead of silently treating the branch as
non-matching: a user-driven switch to it propagates the resolver's
error, and matching — once the loop reaches that branch — propagates
the validator's reference error raised while resolving the pointer
through the attached definitions table. -/
theorem refBranch_absent_definition_errors
    (computeDefaults : JVal → JVal → JVal → JVal) (fuel : Nat)
    (formData : JVal) (options : List JVal) (dfs : List (String × JVal))
    (j : Nat) (r : String)
    (hj : j < options.length)
    (hpure : options.getD j .undefined = .obj [("$ref", .str r)])
    (hstart : strStarts r "#/definitions/" = true)
    (habs : lookupField dfs (r.drop "#/definitions/".length) = none) :
    (∃ e, onOptionChange computeDefaults j formData options (.obj dfs) = .error e) ∧
    ((∀ o ∈ options.take j,
        (if truthy (o.getF "properties") then
          isValidE fuel (augmentOption (.obj dfs) o) formData
         else isValidE fuel (withDefinitions o (.obj dfs)) formData) = .ok false) →
      ∃ e, getMatchingOptionE (isValidE fuel) formData options (.obj dfs) = .error e) := by
  constructor
  · obtain ⟨e, he⟩ := findSchemaDefinition_absent dfs r hstart habs refFuel
    refine ⟨e, ?_⟩
    have hres : resolveNewOption options j (.obj dfs) = .error e := by
      simp only [resolveNewOption, hpure]
      have hkey : (JVal.obj [("$ref", JVal.str r)]).hasKey "$ref" = true := rfl
      rw [if_pos hkey]
      exact he
    rw [onOptionChange_eq, hres]
  · intro htake
    obtain ⟨e, he⟩ := isValidE_pure_ref_absent fuel dfs r formData hstart habs
    have hgetJ : options.getD j .undefined = options[j] := by
      rw [List.getD_eq_getElem?_getD, List.getElem?_eq_getElem hj]
      rfl
    have hdrop : options.drop j =
        (JVal.obj [("$ref", JVal.str r)]) :: options.drop (j + 1) := by
      rw [List.drop_eq_getElem_cons hj, ← hgetJ, hpure]
    have hskip := gmoAuxE_skip (isValidE fuel) formData (.obj dfs)
      (options.take j) (options.drop j) 0 htake
    rw [List.take_append_drop] at hskip
    refine ⟨e, ?_⟩
    unfold getMatchingOptionE
    rw [hskip, hdrop]
    have hprops : truthy ((JVal.obj [("$ref", JVal.str r)]).getF "properties")
        = false := rfl
    simp only [getMatchingOptionAuxE, hprops, Bool.false_eq_true, if_false, he]

/-- Witness for C6 at a concrete input: the single branch
`{"$ref": "#/definitions/Foo"}` over an empty definitions table makes
both the switch and the match raise a reference error. -/
theorem refBranch_absent_definition_errors_witness :
    (∃ e, onOptionChange exComputeDefaultsShared 0 exDataA [exRefBranch]
      (.obj []) = .error e) ∧
    (∃ e, getMatchingOptionE (isValidE 5) exDataA [exRefBranch]
      (.obj []) = .error e) := by
  have h := refBranch_absent_definition_errors exComputeDefaultsShared 5 exDataA
    [exRefBranch] [] 0 "#/definitions/Foo" (by decide) rfl (by decide) rfl
  exact ⟨h.1, h.2 (fun o ho => absurd ho (List.not_mem_nil o))⟩

/-!
### The frame property of heap-level matching (claim C8)

`FrameExt h h'` says the heap `h'` extends `h`: it is at least as
long, and every address that exists in `h` reads the same object in
`h'`.  Each step of the augmentation either allocates at the end of
the heap or writes to an address allocated during the call, so the
whole matching loop is a `FrameExt`. -/

def FrameExt (h h' : Heap) : Prop :=
  h.length ≤ h'.length ∧ ∀ a, a < h.length → hread h' a = hread h a

theorem frameExt_refl (h : Heap) : FrameExt h h :=
  ⟨le_refl _, fun _ _ => rfl⟩

theorem frameExt_trans {h₁ h₂ h₃ : Heap} (h12 : FrameExt h₁ h₂)
    (h23 : FrameExt h₂ h₃) : FrameExt h₁ h₃ :=
  ⟨le_trans h12.1 h23.1,
    fun a ha => (h23.2 a (lt_of_lt_of_le ha h12.1)).trans (h12.2 a ha)⟩

theorem frameExt_alloc (h : Heap) (o : HObj) : FrameExt h (halloc h o).1 := by
  refine ⟨by simp [halloc], fun a ha => ?_⟩
  simp only [halloc, hread]
  exact List.getElem?_append_left ha

theorem frameExt_write {h₀ h : Heap} {b : Nat} (o : HObj) (hfe : FrameExt h₀ h)
    (hb : h₀.length ≤ b) : FrameExt h₀ (hwrite h b o) := by
  refine ⟨?_, ?_⟩
  · simp only [hwrite, List.length_set]
    exact hfe.1
  · intro a ha
    have hne : b ≠ a := by omega
    simp only [hwrite, hread]
    rw [List.getElem?_set_ne hne]
    exact hfe.2 a ha

theorem frameExt_hsetF {h₀ h : Heap} {b : Nat} (k : String) (v : HVal)
    (hfe : FrameExt h₀ h) (hb : h₀.length ≤ b) : FrameExt h₀ (hsetF h b k v) := by
  unfold hsetF
  split
  · exact frameExt_write _ hfe hb
  · exact hfe

theorem frameExt_hdelF {h₀ h : Heap} {b : Nat} (k : String)
    (hfe : FrameExt h₀ h) (hb : h₀.length ≤ b) : FrameExt h₀ (hdelF h b k) := by
  unfold hdelF
  split
  · exact frameExt_write _ hfe hb
  · exact hfe

theorem frameExt_hpush {h₀ h : Heap} {b : Nat} (x : HVal)
    (hfe : FrameExt h₀ h) (hb : h₀.length ≤ b) : FrameExt h₀ (hpush h b x) := by
  unfold hpush
  split
  · exact frameExt_write _ hfe hb
  · exact hfe

theorem frameExt_assignFields {h₀ : Heap} (fs : List (String × HVal)) :
    ∀ {h : Heap} {target : Nat}, FrameExt h₀ h → h₀.length ≤ target →
    FrameExt h₀ (hassignFields h target fs) := by
  induction fs with
  | nil => intro h target hfe _; exact hfe
  | cons kv rest ih =>
    intro h target hfe hb
    simp only [hassignFields, List.foldl_cons]
    exact ih (frameExt_hsetF kv.1 kv.2 hfe hb) hb

theorem frameExt_hallocRequires (keys : List String) :
    ∀ h : Heap, FrameExt h (hallocRequires h keys).1 := by
  induction keys with
  | nil => intro h; exact frameExt_refl h
  | cons key rest ih =>
    intro h
    simp only [hallocRequires]
    exact frameExt_trans (frameExt_trans (frameExt_alloc _ _) (frameExt_alloc _ _))
      (ih _)

theorem frameExt_hallocRequiresAnyOf (h : Heap) (optAddr : Nat) :
    FrameExt h (hallocRequiresAnyOf h optAddr).1 := by
  simp only [hallocRequiresAnyOf]
  exact frameExt_trans
    (frameExt_trans (frameExt_hallocRequires _ h) (frameExt_alloc _ _))
    (frameExt_alloc _ _)

theorem hread_lt {h : Heap} {a : Nat} {o : HObj} (hr : hread h a = some o) :
    a < h.length := by
  by_contra hlt
  push_neg at hlt
  rw [hread, List.getElem?_eq_none hlt] at hr
  cases hr

theorem hread_alloc_self (h : Heap) (o : HObj) :
    hread (halloc h o).1 (halloc h o).2 = some o := by
  simp only [halloc, hread]
  exact List.getElem?_concat_length h o

theorem hread_alloc_lt (h : Heap) (o : HObj) {a : Nat} (ha : a < h.length) :
    hread (halloc h o).1 a = hread h a := by
  simp only [halloc, hread]
  exact List.getElem?_append_left ha

theorem lookupField_setHField_self (fs : List (String × HVal)) (k : String)
    (v : HVal) : lookupField' (setHField fs k v) k = some v := by
  induction fs with
  | nil => simp [setHField, lookupField']
  | cons kv rest ih =>
    by_cases hk : kv.1 = k
    · obtain ⟨k1, v1⟩ := kv
      simp only at hk
      simp [setHField, hk, lookupField']
    · obtain ⟨k1, v1⟩ := kv
      simp only at hk
      simp [setHField, hk, lookupField', ih]

theorem hgetF_hsetF_self {h : Heap} {a : Nat} {fs : List (String × HVal)}
    (hrd : hread h a = some (.obj fs)) (k : String) (v : HVal) :
    hgetF (hsetF h a k v) a k = v := by
  have hlt : a < h.length := hread_lt hrd
  have hw : hsetF h a k v = hwrite h a (.obj (setHField fs k v)) := by
    simp only [hsetF, hrd]
  rw [hw]
  have hr2 : hread (hwrite h a (.obj (setHField fs k v))) a =
      some (.obj (setHField fs k v)) := by
    simp only [hwrite, hread]
    exact List.getElem?_set_eq_of_lt _ hlt
  simp only [hgetF, hr2, lookupField_setHField_self, Option.getD_some]

theorem hsetF_writes {h : Heap} {a : Nat} {fs : List (String × HVal)}
    (hrd : hread h a = some (.obj fs)) (k : String) (v : HVal) :
    hsetF h a k v = hwrite h a (.obj (setHField fs k v)) := by
  simp only [hsetF, hrd]

theorem ensureFreshAllOf_cases (h2 : Heap) (cloneAddr : Nat)
    (fs : List (String × HVal)) (hrd : hread h2 cloneAddr = some (.obj fs)) :
    (∃ arrAddr, h2.length ≤ arrAddr ∧
      hgetF (hensureFreshAllOf h2 cloneAddr) cloneAddr "allOf" = .ref arrAddr) ∨
    (hensureFreshAllOf h2 cloneAddr = h2 ∧
      ∀ x, hgetF h2 cloneAddr "allOf" ≠ .ref x) := by
  have hlt : cloneAddr < h2.length := hread_lt hrd
  unfold hensureFreshAllOf
  by_cases htr : htruthy (hgetF h2 cloneAddr "allOf") = true
  · rw [if_neg (by simp [htr])]
    cases hv : hgetF h2 cloneAddr "allOf" with
    | ref oldArr =>
      left
      refine ⟨h2.length, le_refl _, ?_⟩
      have hrd2 : hread (halloc h2 (.arr (match hread h2 oldArr with
          | some (.arr xs) => xs
          | _ => []))).1 cloneAddr = some (.obj fs) := by
        rw [hread_alloc_lt h2 _ hlt]; exact hrd
      rw [hgetF_hsetF_self hrd2]
      simp [halloc]
    | undefined => rw [hv] at htr; cases htr
    | null => rw [hv] at htr; cases htr
    | bool b =>
      right
      refine ⟨rfl, ?_⟩
      intro x hx
      cases hx
    | num n =>
      right
      refine ⟨rfl, ?_⟩
      intro x hx
      cases hx
    | str s =>
      right
      refine ⟨rfl, ?_⟩
      intro x hx
      cases hx
  · rw [if_pos (by simp [Bool.not_eq_true] at htr; simp [htr])]
    left
    refine ⟨h2.length, le_refl _, ?_⟩
    have hrd2 : hread (halloc h2 (.arr [])).1 cloneAddr = some (.obj fs) := by
      rw [hread_alloc_lt h2 _ hlt]; exact hrd
    rw [hgetF_hsetF_self hrd2]
    simp [halloc]

theorem frameExt_ensureFreshAllOf {h₀ h2 : Heap} {cloneAddr : Nat}
    (hfe : FrameExt h₀ h2) (hb : h₀.length ≤ cloneAddr) :
    FrameExt h₀ (hensureFreshAllOf h2 cloneAddr) := by
  unfold hensureFreshAllOf
  split
  · exact frameExt_hsetF _ _ (frameExt_trans hfe (frameExt_alloc _ _)) hb
  · split
    · exact frameExt_hsetF _ _ (frameExt_trans hfe (frameExt_alloc _ _)) hb
    · exact hfe

theorem frameExt_haugmentWithAnyOf {h₀ h1 : Heap} (optAddr reqAnyAddr : Nat)
    (hfe1 : FrameExt h₀ h1) :
    FrameExt h₀ (haugmentWithAnyOf h1 optAddr reqAnyAddr).1 := by
  unfold haugmentWithAnyOf
  have hrd : hread (halloc h1 (.obj (hfields h1 optAddr))).1
      (halloc h1 (.obj (hfields h1 optAddr))).2 = some (.obj (hfields h1 optAddr)) :=
    hread_alloc_self h1 _
  have hb : h₀.length ≤ (halloc h1 (.obj (hfields h1 optAddr))).2 := by
    simp only [halloc]
    exact hfe1.1
  have hfe2 : FrameExt h₀ (halloc h1 (.obj (hfields h1 optAddr))).1 :=
    frameExt_trans hfe1 (frameExt_alloc _ _)
  have hfe3 : FrameExt h₀ (hensureFreshAllOf (halloc h1 (.obj (hfields h1 optAddr))).1
      (halloc h1 (.obj (hfields h1 optAddr))).2) :=
    frameExt_ensureFreshAllOf hfe2 hb
  have hlen2 : (halloc h1 (.obj (hfields h1 optAddr))).1.length ≥ h₀.length :=
    hfe2.1
  have hfe4 : FrameExt h₀ (hpushRequires
      (hensureFreshAllOf (halloc h1 (.obj (hfields h1 optAddr))).1
        (halloc h1 (.obj (hfields h1 optAddr))).2)
      (halloc h1 (.obj (hfields h1 optAddr))).2 reqAnyAddr) := by
    rcases ensureFreshAllOf_cases (halloc h1 (.obj (hfields h1 optAddr))).1
        (halloc h1 (.obj (hfields h1 optAddr))).2 _ hrd with
      ⟨arrAddr, harr, hv⟩ | ⟨heq, hne⟩
    · unfold hpushRequires
      rw [hv]
      exact frameExt_hpush _ hfe3 (le_trans hlen2 harr)
    · unfold hpushRequires
      rw [heq]
      cases hv : hgetF (halloc h1 (.obj (hfields h1 optAddr))).1
          (halloc h1 (.obj (hfields h1 optAddr))).2 "allOf" with
      | ref x => exact absurd hv (hne x)
      | undefined => rw [heq] at hfe3; exact hfe3
      | null => rw [heq] at hfe3; exact hfe3
      | bool b => rw [heq] at hfe3; exact hfe3
      | num n => rw [heq] at hfe3; exact hfe3
      | str s => rw [heq] at hfe3; exact hfe3
  exact frameExt_hdelF _ hfe4 hb

theorem frameExt_haugmentAssign {h₀ h1 : Heap}
    (definitionsAddr optAddr reqAnyAddr : Nat) (hfe1 : FrameExt h₀ h1) :
    FrameExt h₀ (haugmentAssign h1 definitionsAddr optAddr reqAnyAddr).1 := by
  unfold haugmentAssign
  have hb : h₀.length ≤ (halloc h1 (.obj [("definitions", .ref definitionsAddr)])).2 := by
    simp only [halloc]
    exact hfe1.1
  have hfe2 : FrameExt h₀ (halloc h1 (.obj [("definitions", .ref definitionsAddr)])).1 :=
    frameExt_trans hfe1 (frameExt_alloc _ _)
  exact frameExt_hdelF _
    (frameExt_assignFields _ (frameExt_assignFields _ hfe2 hb) hb) hb

theorem frameExt_haugment (h : Heap) (definitionsAddr optAddr : Nat) :
    FrameExt h (haugmentOption h definitionsAddr optAddr).1 := by
  have hfe1 : FrameExt h (hallocRequiresAnyOf h optAddr).1 :=
    frameExt_hallocRequiresAnyOf h optAddr
  simp only [haugmentOption]
  split
  · exact frameExt_haugmentWithAnyOf optAddr _ hfe1
  · exact frameExt_haugmentAssign definitionsAddr optAddr _ hfe1

theorem frameExt_hwithDefinitions (h : Heap) (definitionsAddr optAddr : Nat) :
    FrameExt h (hwithDefinitions h definitionsAddr optAddr).1 := by
  unfold hwithDefinitions
  have hb : h.length ≤ (halloc h (.obj (hfields h optAddr))).2 := by
    simp only [halloc]
    exact le_refl _
  exact frameExt_hsetF _ _ (frameExt_alloc _ _) hb

theorem frameExt_hGetMatchingOptionAux (isValid : Heap → Nat → JVal → Bool)
    (formData : JVal) (definitionsAddr : Nat) :
    ∀ (opts : List HVal) (h : Heap) (i : Nat),
    FrameExt h (hGetMatchingOptionAux isValid formData definitionsAddr h opts i).1 := by
  intro opts
  induction opts with
  | nil => intro h i; exact frameExt_refl h
  | cons optV rest ih =>
    intro h i
    cases optV with
    | ref optAddr =>
      simp only [hGetMatchingOptionAux]
      by_cases hp : htruthy (hgetF h optAddr "properties") = true
      · rw [if_pos hp]
        split
        · exact frameExt_haugment h definitionsAddr optAddr
        · exact frameExt_trans (frameExt_haugment h definitionsAddr optAddr)
            (ih _ _)
      · rw [if_neg hp]
        split
        · exact frameExt_hwithDefinitions h definitionsAddr optAddr
        · exact frameExt_trans (frameExt_hwithDefinitions h definitionsAddr optAddr)
            (ih _ _)
    | undefined => exact ih h (i + 1)
    | null => exact ih h (i + 1)
    | bool b => exact ih h (i + 1)
    | num n => exact ih h (i + 1)
    | str s => exact ih h (i + 1)

/-- C8: matching never mutates its inputs.  A run of the heap-level
`getMatchingOption` reads the branch list, builds augmented schemas by
allocation, and leaves every pre-existing heap object — every branch
schema in the list, its nested collections, its `required` and `allOf`
fields — exactly as it was. -/
theorem hGetMatchingOption_frame (isValid : Heap → Nat → JVal → Bool)
    (formData : JVal) (h : Heap) (optionsAddr definitionsAddr : Nat)
    (a : Nat) (ha : a < h.length) :
    hread ((hGetMatchingOption isValid formData h optionsAddr definitionsAddr).1) a =
      hread h a := by
  unfold hGetMatchingOption
  split
  · exact (frameExt_hGetMatchingOptionAux isValid formData definitionsAddr _ h 0).2
      a ha
  · rfl

/-- Witness for C8 at a concrete heap: a one-branch options array at
address 0 whose branch (address 1) has `properties` (address 2) and a
truthy `anyOf`; after a full matching run with a rejecting validator,
the branch object at address 1 reads back unchanged. -/
theorem hGetMatchingOption_frame_witness :
    (1 : Nat) <
      ([.arr [.ref 1],
        .obj [("properties", .ref 2), ("anyOf", .num 1)],
        .obj [("a", .undefined)],
        .obj []] : Heap).length ∧
    hread ((hGetMatchingOption (fun _ _ _ => false) .undefined
        [.arr [.ref 1],
         .obj [("properties", .ref 2), ("anyOf", .num 1)],
         .obj [("a", .undefined)],
         .obj []] 0 3).1) 1 =
      hread ([.arr [.ref 1],
        .obj [("properties", .ref 2), ("anyOf", .num 1)],
        .obj [("a", .undefined)],
        .obj []] : Heap) 1 :=
  ⟨by decide,
    hGetMatchingOption_frame (fun _ _ _ => false) .undefined
      [.arr [.ref 1],
       .obj [("properties", .ref 2), ("anyOf", .num 1)],
       .obj [("a", .undefined)],
       .obj []] 0 3 1 (by decide)⟩

end RJSF
